import Mathlib

/-!
Shallow embedding of `src/main.rs` (brute-force program-synthesis engine over a
small register machine).  Machine words are Rust `i32`, modelled as `Int`
together with an explicit reduction `wrap32` into the two's-complement range
`[-2^31, 2^31)`; `Wrapping<i32>` addition and multiplication become
`wrapping_add` / `wrapping_mul`.  Rust panics (`assert!`, `panic!`, `unwrap`)
are modelled by `Option`, `none` standing for an aborted run.  Rust `HashMap<Vr,i32>`
register files are modelled as association lists without duplicate keys
(`mapInsert` overwrites in place or appends); Rust `HashSet` collections are
modelled as lists, with set-membership facts proved where the distinction
matters.  The nondeterministic `HashSet` iteration order used by `verify`
(`good_vrs.iter().nth(0)`) is modelled by the relation `VerifyOutcome`, which
holds of every result the Rust code can return under some iteration order.
-/

/-- Two's-complement reduction of an integer into the `i32` range
`[-2^31, 2^31)`; this is the value a Rust `Wrapping<i32>` operation stores. -/
def wrap32 (z : Int) : Int := (z + 2 ^ 31) % 2 ^ 32 - 2 ^ 31

/-- `Wrapping<i32>` addition from `simulate` (`f_required + t_required`). -/
def wrapping_add (a b : Int) : Int := wrap32 (a + b)

/-- `Wrapping<i32>` multiplication from `simulate` (`f_required * t_required`). -/
def wrapping_mul (a b : Int) : Int := wrap32 (a * b)

/-- `struct Vr(usize)`: a virtual-register index. -/
abbrev Vr := Nat

/-- `enum Instr { Mov(Vr, Vr), Add(Vr, Vr), Mul(Vr, Vr) }`. -/
inductive Instr where
  | Mov : Vr → Vr → Instr
  | Add : Vr → Vr → Instr
  | Mul : Vr → Vr → Instr
deriving DecidableEq, Repr

/-- `struct Program { code, vrs, next_vr, input_vrs }`.  Equality and hashing
are `#[derive]`d in the Rust source, i.e. componentwise/structural. -/
structure Program where
  code : List Instr
  vrs : List Vr
  next_vr : Nat
  input_vrs : List Vr
deriving DecidableEq, Repr

/-- `Program::make_vr`: mint register `next_vr`, push it onto `vrs`. -/
def Program.make_vr (p : Program) : Program × Vr :=
  ({ p with next_vr := p.next_vr + 1, vrs := p.vrs ++ [p.next_vr] }, p.next_vr)

/-- `Program::make_input_vr`: `make_vr` and also record it in `input_vrs`. -/
def Program.make_input_vr (p : Program) : Program × Vr :=
  let q := p.make_vr
  ({ q.1 with input_vrs := q.1.input_vrs ++ [q.2] }, q.2)

/-- `Program::new(num_inputs)`: empty program with `num_inputs` input registers. -/
def Program.new (num_inputs : Nat) : Program :=
  (List.range num_inputs).foldl (fun p _ => (p.make_input_vr).1)
    { code := [], vrs := [], next_vr := 0, input_vrs := [] }

/-- `Program::add_instr`: push one instruction onto `code`. -/
def Program.add_instr (p : Program) (i : Instr) : Program :=
  { p with code := p.code ++ [i] }

/-- `Program::vr_set`: the set of registers of the program.  The Rust function
returns a `HashSet<Vr>` built from `vrs`; since `vrs` never holds duplicates in
any reachable program we model it by the list itself. -/
def Program.vr_set (p : Program) : List Vr := p.vrs

/-- The register file `HashMap<Vr, i32>`, as an association list without
duplicate keys. -/
abbrev RegMap := List (Vr × Int)

/-- `map.get(&k)` on the register file. -/
def mapGet (m : RegMap) (k : Vr) : Option Int :=
  match m with
  | [] => none
  | kv :: rest => if kv.1 = k then some kv.2 else mapGet rest k

/-- `map.insert(k, v)` on the register file: overwrite the binding of `k` in
place, or append a fresh binding when `k` is absent. -/
def mapInsert (m : RegMap) (k : Vr) (v : Int) : RegMap :=
  match m with
  | [] => [(k, v)]
  | kv :: rest => if kv.1 = k then (k, v) :: rest else kv :: mapInsert rest k v

/-- One iteration of the instruction loop in `Program::simulate`.  A `panic!`
("Required register ... has no value") is `none`.  `Mov` reads `frm` and
overwrites/creates `t`; `Add`/`Mul` read both `frm` and `t` and overwrite `t`
with the wrapping sum/product. -/
def execInstr (map : RegMap) : Instr → Option RegMap
  | Instr.Mov frm t =>
    match mapGet map frm with
    | some v => some (mapInsert map t v)
    | none => none
  | Instr.Mul frm t =>
    match mapGet map frm, mapGet map t with
    | some f, some u => some (mapInsert map t (wrapping_mul f u))
    | _, _ => none
  | Instr.Add frm t =>
    match mapGet map frm, mapGet map t with
    | some f, some u => some (mapInsert map t (wrapping_add f u))
    | _, _ => none

/-- `Program::simulate`: check the input arity (`assert!` is `none` on
mismatch), seed the register file from `input_vrs`, then run `code` in order.
The Rust `output: bool` parameter only controls debug printing and is dropped. -/
def simulate (p : Program) (inputs : List Int) : Option RegMap :=
  if inputs.length = p.input_vrs.length then
    (p.code).foldlM execInstr
      ((p.input_vrs.zip inputs).foldl (fun m kv => mapInsert m kv.1 kv.2) [])
  else none

/-- `Program::derive`: all children of `p`, in the source's construction order:
the growing moves `Mov(vr, make_vr())` for each `vr`, then `Mul(vrf, vrt)` for
every ordered pair, then `Add(vrf, vrt)` for every ordered pair.  The Rust code
inserts these into a `HashSet<Program>`; the children are pairwise distinct
programs (proved below for reachable parents), so the list models the set. -/
def derive (p : Program) : List Program :=
  (p.vrs.map (fun vr =>
    let q := p.make_vr
    q.1.add_instr (Instr.Mov vr q.2)))
  ++ (p.vrs.flatMap (fun vrf => p.vrs.map (fun vrt => p.add_instr (Instr.Mul vrf vrt))))
  ++ (p.vrs.flatMap (fun vrf => p.vrs.map (fun vrt => p.add_instr (Instr.Add vrf vrt))))

/-- `contained_in(assignments, goal)`: the registers of the assignment map
whose value equals `goal` (a `HashSet<Vr>` in Rust, a list here). -/
def contained_in (assignments : RegMap) (goal : Int) : List Vr :=
  (assignments.filter (fun kv => kv.2 = goal)).map (fun kv => kv.1)

/-- `enum VerificationResult`. -/
inductive VerificationResult where
  | Correct : Vr → VerificationResult
  | LinearNear : Vr → Int → Int → VerificationResult
  | Invalid : VerificationResult
deriving DecidableEq, Repr

/-- The `good_vrs` set computed by `verify`: start from `all_vrs` and
intersect, test case by test case, with `contained_in`. -/
def goodVrs (all_vrs : List Vr) (tests : List (RegMap × Int)) : List Vr :=
  tests.foldl
    (fun good t => good.filter (fun v => (contained_in t.1 t.2).contains v))
    all_vrs

/-- The set of results `verify` can return.  The Rust code returns `Invalid`
when `good_vrs` is empty and otherwise `Correct(good_vrs.iter().nth(0))`;
`good_vrs` is a `HashSet` whose iteration order depends on the per-process
random hash state, so `nth(0)` is an unspecified element of the set.
`VerifyOutcome all_vrs tests r` holds exactly when some iteration order makes
`verify` return `r`. -/
def VerifyOutcome (all_vrs : List Vr) (tests : List (RegMap × Int))
    (r : VerificationResult) : Prop :=
  (goodVrs all_vrs tests = [] ∧ r = VerificationResult.Invalid) ∨
  (∃ v ∈ goodVrs all_vrs tests, r = VerificationResult.Correct v)

instance (all_vrs : List Vr) (tests : List (RegMap × Int)) (r : VerificationResult) :
    Decidable (VerifyOutcome all_vrs tests r) := by
  unfold VerifyOutcome; infer_instance

/-- A deterministic representative of `verify`, used to model the scheduler:
it resolves the unspecified `nth(0)` to the first surviving register in
`all_vrs` order.  Every fact proved about the scheduler below depends only on
whether the result is `Invalid`, which is the same under every resolution. -/
def verify (all_vrs : List Vr) (tests : List (RegMap × Int)) : VerificationResult :=
  match goodVrs all_vrs tests with
  | [] => VerificationResult.Invalid
  | v :: _ => VerificationResult.Correct v

/-- `as_output_set(full_output)`: for each test case, read registers
`Vr(0) .. Vr(keys.len()-1)` out of the map in index order (`unwrap` of a
missing register is a panic, i.e. `none`).  The key count of a duplicate-free
association list is its length. -/
def as_output_set (full_output : List (RegMap × Int)) : Option (List (List Int)) :=
  full_output.mapM (fun mt => (List.range mt.1.length).mapM (fun u => mapGet mt.1 u))

/-- The `testresults` / `outputs` construction in `main`: simulate `p` on every
oracle input, pairing each resulting register file with the expected output. -/
def testresultsOf (testinputs : List (List Int × Int)) (p : Program) :
    Option (List (RegMap × Int)) :=
  testinputs.mapM (fun ti => (simulate p ti.1).map (fun m => (m, ti.2)))

/-- One candidate's entry in the `results` vector of `main`'s loop:
`(p, as_output_set(outputs), verify(p.vr_set(), outputs))`. -/
def nodeOf (testinputs : List (List Int × Int)) (p : Program) :
    Option (Program × List (List Int) × VerificationResult) := do
  let outputs ← testresultsOf testinputs p
  let sig ← as_output_set outputs
  pure (p, sig, verify p.vr_set outputs)

/-- The body of `main`'s generation loop up to the `results` vector: flat-map
`derive` over the frontier, build each candidate's `(program, signature,
verification)` triple, and keep only candidates whose signature is not in
`visited`.  Note that the Rust loop reads `visited` but never inserts into it,
so `visited` stays exactly as `main` initialised it (the root's signature). -/
def genResults (testinputs : List (List Int × Int)) (visited : List (List (List Int)))
    (programs : List Program) :
    Option (List (Program × List (List Int) × VerificationResult)) :=
  ((programs.flatMap derive).mapM (nodeOf testinputs)).map
    (fun rs => rs.filter (fun rt => !(visited.contains rt.2.1)))

/-- Whether a candidate triple counts as a "good program" for
`find_any` in `main` (any non-`Invalid` verification result). -/
def isGoodResult (rt : Program × List (List Int) × VerificationResult) : Bool :=
  rt.2.2 != VerificationResult.Invalid

/-- `main`'s generation loop.  `fuel` bounds how many generations we unfold
(the Rust loop is unbounded); `gen` is the generation number of the programs
built in the current iteration (the iteration printed as "Generation 0" builds
the 1-instruction programs, so the top-level call starts at `gen = 1` =
instruction count of the candidates).  `none` means the fuel ran out or a
simulation panicked; `some (g, p)` means a good program `p` was reported while
processing generation `g`.  `find?` models `find_any`'s arbitrary choice by a
deterministic one; whether *some* good program exists is choice-independent. -/
def loopRun (testinputs : List (List Int × Int)) (visited : List (List (List Int))) :
    Nat → Nat → List Program → Option (Nat × Program)
  | 0, _, _ => none
  | fuel + 1, gen, programs =>
    match genResults testinputs visited programs with
    | none => none
    | some results =>
      match results.find? isGoodResult with
      | some rt => some (gen, rt.1)
      | none => loopRun testinputs visited fuel (gen + 1) (results.map (fun rt => rt.1))

/-- The whole of `main` after the oracle literal: build the root program,
simulate it on every test case, record the root's output signature as the sole
element of `visited`, verify the root (the result is only printed), and enter
the generation loop.  Returns the printed root verification together with the
loop's outcome. -/
def mainModel (testinputs : List (List Int × Int)) (insize : Nat) (fuel : Nat) :
    Option (VerificationResult × Option (Nat × Program)) :=
  match testresultsOf testinputs (Program.new insize) with
  | none => none
  | some testresults =>
    match as_output_set testresults with
    | none => none
    | some rootSig =>
      some (verify (Program.new insize).vr_set testresults,
        loopRun testinputs [rootSig] fuel 1 [Program.new insize])

/-- The registers an instruction reads in `simulate` (`Mov` reads its source;
`Add`/`Mul` read both operands). -/
def readsOf : Instr → List Vr
  | Instr.Mov frm _ => [frm]
  | Instr.Mul frm t => [frm, t]
  | Instr.Add frm t => [frm, t]

/-- The register an instruction writes in `simulate`. -/
def writesOf : Instr → Vr
  | Instr.Mov _ t => t
  | Instr.Mul _ t => t
  | Instr.Add _ t => t

/-- Static well-formedness of a code sequence relative to the set `avail` of
registers that already hold a value: every instruction reads only available
registers, where each instruction makes its written register available for the
rest of the sequence. -/
def wfCode (avail : List Vr) : List Instr → Bool
  | [] => true
  | i :: rest => (readsOf i).all (fun r => avail.contains r) && wfCode (writesOf i :: avail) rest

/-- A register satisfies the whole oracle when its value equals the expected
output in every test case (the verification condition of §4.4 in the spec). -/
def SatisfiesAll (v : Vr) (tests : List (RegMap × Int)) : Prop :=
  ∀ t ∈ tests, mapGet t.1 v = some t.2

instance (v : Vr) (tests : List (RegMap × Int)) : Decidable (SatisfiesAll v tests) := by
  unfold SatisfiesAll; infer_instance

/-- The "growing move" child built inside `derive`: `make_vr` then
`Mov(vr, fresh)`, where the fresh register is `p.next_vr`. -/
def growChild (p : Program) (vr : Vr) : Program :=
  (p.make_vr).1.add_instr (Instr.Mov vr p.next_vr)

/-! ### Concrete scenarios used to settle individual claims -/

/-- A degenerate oracle (identity on one input): the zero-instruction root
already satisfies it on register 0. -/
def degenOracle : List (List Int × Int) := [([0], 0), ([1], 1)]

/-- The winning one-instruction program the model reports on `degenOracle`. -/
def movWinner : Program :=
  { code := [Instr.Mov 0 1], vrs := [0, 1], next_vr := 2, input_vrs := [0] }

/-- A one-test oracle (input `[1]`, expected `7`) that nothing short matches;
used to drive the search to generation 2. -/
def oracle7 : List (List Int × Int) := [([1], 7)]

/-- The `visited` set `main` builds for `oracle7`: just the root's signature. -/
def visited7 : List (List (List Int)) := [[[1]]]

/-- Generation-1 survivor `[Mov(0,1)]` of the `oracle7` run. -/
def movChild1 : Program :=
  { code := [Instr.Mov 0 1], vrs := [0, 1], next_vr := 2, input_vrs := [0] }

/-- Generation-1 survivor `[Add(0,0)]` of the `oracle7` run. -/
def addChild1 : Program :=
  { code := [Instr.Add 0 0], vrs := [0], next_vr := 1, input_vrs := [0] }

/-- The generation-1 frontier of the `oracle7` run. -/
def frontier1 : List Program := [movChild1, addChild1]

/-- Generation-2 candidate `[Mov(0,1); Mul(0,1)]`. -/
def progA : Program := movChild1.add_instr (Instr.Mul 0 1)

/-- Generation-2 candidate `[Mov(0,1); Mul(1,1)]`. -/
def progB : Program := movChild1.add_instr (Instr.Mul 1 1)

/-- The materialized-output signature of a program under `oracle7`. -/
def sigOf7 (p : Program) : Option (List (List Int)) :=
  (testresultsOf oracle7 p).bind as_output_set

/-- The program `[Add(0,0)]` over one input. -/
def pAdd : Program := (Program.new 1).add_instr (Instr.Add 0 0)

/-- The program `[Mul(0,0)]` over one input. -/
def pMul : Program := (Program.new 1).add_instr (Instr.Mul 0 0)

/-! ### Helper lemmas about the register file -/

theorem mapGet_mapInsert (m : RegMap) (k k' : Vr) (v : Int) :
    mapGet (mapInsert m k v) k' = if k = k' then some v else mapGet m k' := by
  induction m with
  | nil => simp [mapInsert, mapGet]
  | cons kv rest ih =>
    by_cases h1 : kv.1 = k
    · by_cases h2 : k = k' <;> simp [mapInsert, mapGet, h1, h2]
    · by_cases h2 : kv.1 = k'
      · have hk : ¬ k = k' := fun h => h1 (h2.trans h.symm)
        have hk2 : ¬ k' = k := fun h => hk h.symm
        simp [mapInsert, mapGet, h1, h2, hk, hk2]
      · simp [mapInsert, mapGet, h1, h2, ih]

theorem mapInsert_length_of_absent (m : RegMap) (k : Vr) (v : Int)
    (h : mapGet m k = none) : (mapInsert m k v).length = m.length + 1 := by
  induction m with
  | nil => simp [mapInsert]
  | cons kv rest ih =>
    by_cases h1 : kv.1 = k
    · simp [mapGet, h1] at h
    · simp [mapGet, h1] at h
      simp [mapInsert, h1, ih h]

theorem mapInsert_length_of_present (m : RegMap) (k : Vr) (v w : Int)
    (h : mapGet m k = some w) : (mapInsert m k v).length = m.length := by
  induction m with
  | nil => simp [mapGet] at h
  | cons kv rest ih =>
    by_cases h1 : kv.1 = k
    · simp [mapInsert, h1]
    · simp [mapGet, h1] at h
      simp [mapInsert, h1, ih h]

/-! ### Helper lemmas about wrapping arithmetic -/

theorem wrap32_emod (z : Int) : wrap32 z % 2 ^ 32 = z % 2 ^ 32 := by
  unfold wrap32
  omega

theorem wrap32_lower (z : Int) : -2 ^ 31 ≤ wrap32 z := by
  unfold wrap32
  omega

theorem wrap32_upper (z : Int) : wrap32 z < 2 ^ 31 := by
  unfold wrap32
  omega

/-! ### Helper lemmas about instruction execution -/

theorem execInstr_isSome (m : RegMap) (i : Instr) :
    (execInstr m i).isSome ↔ ∀ r ∈ readsOf i, (mapGet m r).isSome := by
  cases i with
  | Mov frm t =>
    cases h : mapGet m frm <;> simp [execInstr, readsOf, h]
  | Add frm t =>
    cases h1 : mapGet m frm <;> cases h2 : mapGet m t <;>
      simp [execInstr, readsOf, h1, h2]
  | Mul frm t =>
    cases h1 : mapGet m frm <;> cases h2 : mapGet m t <;>
      simp [execInstr, readsOf, h1, h2]

theorem execInstr_dom (m m2 : RegMap) (i : Instr) (h : execInstr m i = some m2) :
    ∀ k, (mapGet m2 k).isSome ↔ (k = writesOf i ∨ (mapGet m k).isSome) := by
  intro k
  cases i with
  | Mov frm t =>
    cases hf : mapGet m frm <;> simp [execInstr, hf] at h
    subst h
    by_cases ht : t = k <;> simp [mapGet_mapInsert, writesOf, ht] <;> tauto
  | Add frm t =>
    cases hf : mapGet m frm <;> cases hu : mapGet m t <;> simp [execInstr, hf, hu] at h
    subst h
    by_cases ht : t = k <;> simp [mapGet_mapInsert, writesOf, ht, hu] <;> tauto
  | Mul frm t =>
    cases hf : mapGet m frm <;> cases hu : mapGet m t <;> simp [execInstr, hf, hu] at h
    subst h
    by_cases ht : t = k <;> simp [mapGet_mapInsert, writesOf, ht, hu] <;> tauto

theorem foldlM_execInstr_isSome (code : List Instr) :
    ∀ (m : RegMap) (avail : List Vr),
      (∀ k, (mapGet m k).isSome ↔ k ∈ avail) →
      ((code.foldlM execInstr m).isSome ↔ wfCode avail code = true) := by
  induction code with
  | nil => intro m avail _; simp [wfCode, List.foldlM]
  | cons i rest ih =>
    intro m avail hm
    rw [List.foldlM_cons]
    cases hex : execInstr m i with
    | none =>
      have hreads : ¬ ∀ r ∈ readsOf i, (mapGet m r).isSome := by
        intro hall
        have := (execInstr_isSome m i).mpr hall
        rw [hex] at this
        simp at this
      have hall : ¬ ∀ x ∈ readsOf i, x ∈ avail := by
        intro hx
        apply hreads
        intro r hr
        rw [hm r]
        exact hx r hr
      simp [wfCode]
      intro hx
      exact absurd hx hall
    | some m2 =>
      have hreads : ∀ r ∈ readsOf i, (mapGet m r).isSome := by
        rw [← execInstr_isSome m i, hex]
        simp
      have hall : (readsOf i).all (fun r => avail.contains r) = true := by
        rw [List.all_eq_true]
        intro r hr
        simpa using (hm r).mp (hreads r hr)
      have hm2 : ∀ k, (mapGet m2 k).isSome ↔ k ∈ (writesOf i :: avail) := by
        intro k
        rw [execInstr_dom m m2 i hex k]
        simp [hm k]
      have hwf : wfCode avail (i :: rest) = wfCode (writesOf i :: avail) rest := by
        simp [wfCode, hall]
        intro _ r hr
        simpa using (List.all_eq_true.mp hall) r hr
      rw [hwf]
      simpa using ih m2 (writesOf i :: avail) hm2

theorem mapGet_seed_isSome (l : List (Vr × Int)) :
    ∀ (m : RegMap) (k : Vr),
      (mapGet (l.foldl (fun m kv => mapInsert m kv.1 kv.2) m) k).isSome ↔
        (k ∈ l.map Prod.fst ∨ (mapGet m k).isSome) := by
  induction l with
  | nil => intro m k; simp
  | cons kv rest ih =>
    intro m k
    simp only [List.foldl_cons, List.map_cons, List.mem_cons]
    rw [ih]
    by_cases h : kv.1 = k <;> simp [mapGet_mapInsert, h] <;> tauto

/-! ### Helper lemmas about the verifier -/

theorem contained_in_subset (m : RegMap) (g : Int) (v : Vr)
    (h : v ∈ contained_in m g) : v ∈ m.map Prod.fst := by
  simp only [contained_in, List.mem_map, List.mem_filter] at h
  obtain ⟨kv, ⟨hmem, _⟩, hfst⟩ := h
  exact List.mem_map.mpr ⟨kv, hmem, hfst⟩

theorem mem_contained_in_pair (m : RegMap) (g : Int) (v : Vr) :
    v ∈ contained_in m g ↔ (v, g) ∈ m := by
  simp only [contained_in, List.mem_map, List.mem_filter, decide_eq_true_eq]
  constructor
  · rintro ⟨⟨k1, k2⟩, ⟨hm, hg⟩, hf⟩
    simp only at hf hg
    subst hf; subst hg
    exact hm
  · intro hm
    exact ⟨(v, g), ⟨hm, rfl⟩, rfl⟩

theorem mem_pair_mapGet (m : RegMap) (v : Vr) (g : Int)
    (hnd : (m.map Prod.fst).Nodup) : (v, g) ∈ m ↔ mapGet m v = some g := by
  induction m with
  | nil => simp [mapGet]
  | cons kv rest ih =>
    obtain ⟨k1, k2⟩ := kv
    simp only [List.map_cons, List.nodup_cons] at hnd
    by_cases h : k1 = v
    · subst h
      simp only [mapGet, if_true, eq_self_iff_true, List.mem_cons, Prod.mk.injEq,
        true_and, Option.some.injEq]
      constructor
      · rintro (hg | hmem)
        · exact hg.symm
        · exact absurd (List.mem_map.mpr ⟨(k1, g), hmem, rfl⟩) hnd.1
      · intro hg
        exact Or.inl hg.symm
    · have hne : ((v, g) = (k1, k2)) = False := by
        simp only [Prod.mk.injEq, eq_iff_iff, iff_false, not_and]
        intro hv
        exact absurd hv.symm h
      simp [mapGet, h, hne, ih hnd.2]

theorem mem_contained_in (m : RegMap) (g : Int) (v : Vr)
    (hnd : (m.map Prod.fst).Nodup) : v ∈ contained_in m g ↔ mapGet m v = some g := by
  rw [mem_contained_in_pair]
  exact mem_pair_mapGet m v g hnd

theorem mem_goodVrs (tests : List (RegMap × Int)) :
    ∀ (all_vrs : List Vr) (v : Vr),
      v ∈ goodVrs all_vrs tests ↔
        (v ∈ all_vrs ∧ ∀ t ∈ tests, v ∈ contained_in t.1 t.2) := by
  induction tests with
  | nil => intro all v; simp [goodVrs]
  | cons t rest ih =>
    intro all v
    have hstep : goodVrs all (t :: rest) =
        goodVrs (all.filter (fun v => (contained_in t.1 t.2).contains v)) rest := rfl
    rw [hstep, ih]
    simp only [List.mem_filter, List.mem_cons]
    constructor
    · rintro ⟨⟨hva, hvc⟩, hrest⟩
      refine ⟨hva, ?_⟩
      intro u hu
      rcases hu with hu | hu
      · subst hu; simpa using hvc
      · exact hrest u hu
    · rintro ⟨hva, hall⟩
      exact ⟨⟨hva, by simpa using hall t (Or.inl rfl)⟩, fun u hu => hall u (Or.inr hu)⟩

theorem mem_goodVrs_satisfies (all_vrs : List Vr) (tests : List (RegMap × Int)) (v : Vr)
    (hnd : ∀ t ∈ tests, (t.1.map Prod.fst).Nodup) :
    v ∈ goodVrs all_vrs tests ↔ (v ∈ all_vrs ∧ SatisfiesAll v tests) := by
  rw [mem_goodVrs]
  unfold SatisfiesAll
  constructor
  · rintro ⟨hva, hall⟩
    exact ⟨hva, fun t ht => (mem_contained_in t.1 t.2 v (hnd t ht)).mp (hall t ht)⟩
  · rintro ⟨hva, hall⟩
    exact ⟨hva, fun t ht => (mem_contained_in t.1 t.2 v (hnd t ht)).mpr (hall t ht)⟩

/-! ### Helper lemmas about derivation and stepping -/

theorem mem_derive (p : Program) (q : Program) :
    q ∈ derive p ↔
      ((∃ vr ∈ p.vrs, q = growChild p vr) ∨
       (∃ vrf ∈ p.vrs, ∃ vrt ∈ p.vrs, q = p.add_instr (Instr.Mul vrf vrt)) ∨
       (∃ vrf ∈ p.vrs, ∃ vrt ∈ p.vrs, q = p.add_instr (Instr.Add vrf vrt))) := by
  simp only [derive, growChild, List.mem_append, List.mem_map, List.mem_flatMap]
  constructor
  · rintro ((⟨vr, hvr, rfl⟩ | ⟨vrf, hf, vrt, ht, rfl⟩) | ⟨vrf, hf, vrt, ht, rfl⟩)
    · exact Or.inl ⟨vr, hvr, rfl⟩
    · exact Or.inr (Or.inl ⟨vrf, hf, vrt, ht, rfl⟩)
    · exact Or.inr (Or.inr ⟨vrf, hf, vrt, ht, rfl⟩)
  · rintro (⟨vr, hvr, rfl⟩ | ⟨vrf, hf, vrt, ht, rfl⟩ | ⟨vrf, hf, vrt, ht, rfl⟩)
    · exact Or.inl (Or.inl ⟨vr, hvr, rfl⟩)
    · exact Or.inl (Or.inr ⟨vrf, hf, vrt, ht, rfl⟩)
    · exact Or.inr ⟨vrf, hf, vrt, ht, rfl⟩

theorem simulate_code_append (p q : Program) (i : Instr)
    (hc : q.code = p.code ++ [i]) (hi : q.input_vrs = p.input_vrs) (inputs : List Int) :
    simulate q inputs = (simulate p inputs).bind (fun m => execInstr m i) := by
  unfold simulate
  rw [hc, hi]
  by_cases h : inputs.length = p.input_vrs.length
  · rw [if_pos h, if_pos h, List.foldlM_append]
    cases (p.code.foldlM execInstr
        ((p.input_vrs.zip inputs).foldl (fun m kv => mapInsert m kv.1 kv.2) [])) with
    | none => simp
    | some m => simp [List.foldlM]
  · rw [if_neg h, if_neg h]
    simp

theorem loopRun_gen_le (testinputs : List (List Int × Int))
    (visited : List (List (List Int))) :
    ∀ (fuel gen : Nat) (programs : List Program) (g : Nat) (w : Program),
      loopRun testinputs visited fuel gen programs = some (g, w) → gen ≤ g := by
  intro fuel
  induction fuel with
  | zero =>
    intro gen programs g w h
    simp [loopRun] at h
  | succ n ih =>
    intro gen programs g w h
    unfold loopRun at h
    cases hr : genResults testinputs visited programs with
    | none => simp only [hr] at h; exact absurd h (by simp)
    | some results =>
      simp only [hr] at h
      cases hf : results.find? isGoodResult with
      | some rt =>
        simp only [hf, Option.some.injEq, Prod.mk.injEq] at h
        omega
      | none =>
        simp only [hf] at h
        have := ih (gen + 1) (results.map (fun rt => rt.1)) g w h
        omega

theorem add_instr_inj (p : Program) (i j : Instr)
    (h : p.add_instr i = p.add_instr j) : i = j := by
  have hc := congrArg Program.code h
  simpa [Program.add_instr] using hc

theorem growChild_vrs (p : Program) (vr : Vr) :
    (growChild p vr).vrs = p.vrs ++ [p.next_vr] := rfl

theorem add_instr_vrs (p : Program) (i : Instr) : (p.add_instr i).vrs = p.vrs := rfl

theorem growChild_inj (p : Program) : Function.Injective (growChild p) := by
  intro a b hab
  have hc := congrArg Program.code hab
  simpa [growChild, Program.add_instr, Program.make_vr] using hc

theorem growChild_ne_add_instr (p : Program) (vr : Vr) (i : Instr) :
    growChild p vr ≠ p.add_instr i := by
  intro h
  have hc := congrArg (fun q => q.vrs.length) h
  simp [growChild_vrs, add_instr_vrs] at hc

theorem derive_nodup (p : Program) (hvnd : p.vrs.Nodup) : (derive p).Nodup := by
  have hb1 : (p.vrs.map (fun vr =>
      let q := p.make_vr
      q.1.add_instr (Instr.Mov vr q.2))).Nodup := by
    refine hvnd.map ?_
    intro a b hab
    exact growChild_inj p hab
  have hmul : (p.vrs.flatMap
      (fun vrf => p.vrs.map (fun vrt => p.add_instr (Instr.Mul vrf vrt)))).Nodup := by
    rw [List.nodup_flatMap]
    constructor
    · intro vrf _
      refine hvnd.map ?_
      intro a b hab
      have := add_instr_inj p _ _ hab
      simpa using this
    · refine hvnd.pairwise_of_forall_ne ?_
      intro a b _ _ hne q hqa hqb
      simp only [List.mem_map] at hqa hqb
      obtain ⟨ja, _, hja⟩ := hqa
      obtain ⟨jb, _, hjb⟩ := hqb
      have := add_instr_inj p _ _ (hja.trans hjb.symm)
      simp at this
      exact hne this.1
  have hadd : (p.vrs.flatMap
      (fun vrf => p.vrs.map (fun vrt => p.add_instr (Instr.Add vrf vrt)))).Nodup := by
    rw [List.nodup_flatMap]
    constructor
    · intro vrf _
      refine hvnd.map ?_
      intro a b hab
      have := add_instr_inj p _ _ hab
      simpa using this
    · refine hvnd.pairwise_of_forall_ne ?_
      intro a b _ _ hne q hqa hqb
      simp only [List.mem_map] at hqa hqb
      obtain ⟨ja, _, hja⟩ := hqa
      obtain ⟨jb, _, hjb⟩ := hqb
      have := add_instr_inj p _ _ (hja.trans hjb.symm)
      simp at this
      exact hne this.1
  unfold derive
  rw [List.nodup_append, List.nodup_append]
  refine ⟨⟨hb1, hmul, ?_⟩, hadd, ?_⟩
  · intro q hq1 hq2
    simp only [List.mem_map] at hq1
    obtain ⟨vr, _, hq⟩ := hq1
    simp only [List.mem_flatMap, List.mem_map] at hq2
    obtain ⟨f2, _, t2, _, hq2⟩ := hq2
    exact growChild_ne_add_instr p vr (Instr.Mul f2 t2) (hq.trans hq2.symm)
  · intro q hq1 hq2
    simp only [List.mem_flatMap, List.mem_map] at hq2
    obtain ⟨f3, _, t3, _, hq3⟩ := hq2
    rw [List.mem_append] at hq1
    rcases hq1 with hq1 | hq1
    · simp only [List.mem_map] at hq1
      obtain ⟨vr, _, hq⟩ := hq1
      exact growChild_ne_add_instr p vr (Instr.Add f3 t3) (hq.trans hq3.symm)
    · simp only [List.mem_flatMap, List.mem_map] at hq1
      obtain ⟨f2, _, t2, _, hq2⟩ := hq1
      have := add_instr_inj p _ _ ((hq2 : _ = q).trans (hq3 : _ = q).symm)
      simp at this

/-! ### Claim theorems -/

/-- **C6** (wraparound law): executing `Add(i,j)` / `Mul(i,j)` stores the
wrapping sum/product of the operands in register `j`, and that stored value
equals the mathematically exact sum/product reduced modulo `2^32` into the
two's-complement range `[-2^31, 2^31)`, for every pair of operand values, with
no trap and no saturation (the operation always succeeds). -/
theorem wrapping_arith_mod_correct (m : RegMap) (i j : Vr) (a b : Int)
    (hi : mapGet m i = some a) (hj : mapGet m j = some b) :
    execInstr m (Instr.Add i j) = some (mapInsert m j (wrapping_add a b)) ∧
    execInstr m (Instr.Mul i j) = some (mapInsert m j (wrapping_mul a b)) ∧
    wrapping_add a b % 2 ^ 32 = (a + b) % 2 ^ 32 ∧
    -2 ^ 31 ≤ wrapping_add a b ∧ wrapping_add a b < 2 ^ 31 ∧
    wrapping_mul a b % 2 ^ 32 = (a * b) % 2 ^ 32 ∧
    -2 ^ 31 ≤ wrapping_mul a b ∧ wrapping_mul a b < 2 ^ 31 := by
  refine ⟨?_, ?_, wrap32_emod _, wrap32_lower _, wrap32_upper _,
    wrap32_emod _, wrap32_lower _, wrap32_upper _⟩
  · simp [execInstr, hi, hj]
  · simp [execInstr, hi, hj]

theorem wrapping_arith_mod_correct_witness :
    execInstr [(0, 2147483647), (1, 1)] (Instr.Add 0 1) =
      some (mapInsert [(0, 2147483647), (1, 1)] 1 (wrapping_add 2147483647 1)) ∧
    execInstr [(0, 2147483647), (1, 1)] (Instr.Mul 0 1) =
      some (mapInsert [(0, 2147483647), (1, 1)] 1 (wrapping_mul 2147483647 1)) ∧
    wrapping_add 2147483647 1 % 2 ^ 32 = (2147483647 + 1) % 2 ^ 32 ∧
    -2 ^ 31 ≤ wrapping_add 2147483647 1 ∧ wrapping_add 2147483647 1 < 2 ^ 31 ∧
    wrapping_mul 2147483647 1 % 2 ^ 32 = (2147483647 * 1) % 2 ^ 32 ∧
    -2 ^ 31 ≤ wrapping_mul 2147483647 1 ∧ wrapping_mul 2147483647 1 < 2 ^ 31 :=
  wrapping_arith_mod_correct [(0, 2147483647), (1, 1)] 0 1 2147483647 1
    (by decide) (by decide)

/-- **C7** (growing-move invariant): executing `Mov(i, R)` on a register file
where `R` holds no value yet (the growing case) succeeds, binds `R` to register
`i`'s current value, leaves every other register's value unchanged, and grows
the register count by exactly one — simultaneously for every test-case state
in the list. -/
theorem growing_mov_appends (states : List RegMap) (i R : Vr)
    (h : ∀ m ∈ states, (mapGet m i).isSome ∧ mapGet m R = none) :
    ∀ m ∈ states, ∃ m2, execInstr m (Instr.Mov i R) = some m2 ∧
      mapGet m2 R = mapGet m i ∧
      (∀ k, k ≠ R → mapGet m2 k = mapGet m k) ∧
      m2.length = m.length + 1 := by
  intro m hm
  obtain ⟨hi, hR⟩ := h m hm
  obtain ⟨v, hv⟩ := Option.isSome_iff_exists.mp hi
  refine ⟨mapInsert m R v, ?_, ?_, ?_, ?_⟩
  · simp [execInstr, hv]
  · rw [mapGet_mapInsert, hv]
    simp
  · intro k hk
    rw [mapGet_mapInsert]
    rw [if_neg (fun hh => hk hh.symm)]
  · exact mapInsert_length_of_absent m R v hR

theorem growing_mov_appends_witness :
    ∃ m2, execInstr [(0, 5)] (Instr.Mov 0 1) = some m2 ∧
      mapGet m2 1 = mapGet [(0, 5)] 0 ∧
      (∀ k, k ≠ 1 → mapGet m2 k = mapGet [(0, 5)] k) ∧
      m2.length = [(0, 5)].length + 1 :=
  growing_mov_appends [[(0, 5)]] 0 1 (by decide) [(0, 5)] (by simp)

/-- **C8** (simulator stepping equivalence): every child `q` produced by
`derive` from a parent `p` extends `p`'s code by exactly one instruction `i`
and keeps the parent's input registers, and for every input vector, a full
replay of `q` from the inputs equals applying the single-instruction semantics
`execInstr i` to the parent's simulated register state — so reusing the
parent's output as a baseline (the spec's memoization) is exact. -/
theorem simulate_step_equivalence (p q : Program) (hq : q ∈ derive p) :
    ∃ i : Instr, q.code = p.code ++ [i] ∧ q.input_vrs = p.input_vrs ∧
      ∀ inputs : List Int,
        simulate q inputs = (simulate p inputs).bind (fun m => execInstr m i) := by
  rw [mem_derive] at hq
  rcases hq with ⟨vr, _, rfl⟩ | ⟨vrf, _, vrt, _, rfl⟩ | ⟨vrf, _, vrt, _, rfl⟩
  · exact ⟨Instr.Mov vr p.next_vr, rfl, rfl,
      simulate_code_append p _ (Instr.Mov vr p.next_vr) rfl rfl⟩
  · exact ⟨Instr.Mul vrf vrt, rfl, rfl,
      simulate_code_append p _ (Instr.Mul vrf vrt) rfl rfl⟩
  · exact ⟨Instr.Add vrf vrt, rfl, rfl,
      simulate_code_append p _ (Instr.Add vrf vrt) rfl rfl⟩

theorem simulate_step_equivalence_witness :
    ∃ i : Instr, movChild1.code = (Program.new 1).code ++ [i] ∧
      movChild1.input_vrs = (Program.new 1).input_vrs ∧
      ∀ inputs : List Int,
        simulate movChild1 inputs =
          (simulate (Program.new 1) inputs).bind (fun m => execInstr m i) :=
  simulate_step_equivalence (Program.new 1) movChild1 (by decide)

/-- **C9** (precondition violations are fatal): `simulate` succeeds exactly
when the input vector's length matches the program's input arity AND every
instruction reads only registers already holding a value at its point in the
code; otherwise it aborts (`none`, the Rust `assert!`/`panic!`).  In
particular an arity mismatch or a read of an absent register always aborts,
and a well-formed program on a matching-arity input never does. -/
theorem simulate_aborts_iff_precondition (p : Program) (inputs : List Int) :
    (simulate p inputs).isSome ↔
      (inputs.length = p.input_vrs.length ∧ wfCode p.input_vrs p.code = true) := by
  unfold simulate
  by_cases h : inputs.length = p.input_vrs.length
  · rw [if_pos h]
    have hdom : ∀ k, (mapGet ((p.input_vrs.zip inputs).foldl
        (fun m kv => mapInsert m kv.1 kv.2) []) k).isSome ↔ k ∈ p.input_vrs := by
      intro k
      rw [mapGet_seed_isSome]
      rw [List.map_fst_zip p.input_vrs inputs (le_of_eq h.symm)]
      simp [mapGet]
    rw [foldlM_execInstr_isSome p.code _ p.input_vrs hdom]
    simp [h]
  · rw [if_neg h]
    simp [h]

theorem simulate_aborts_iff_precondition_witness :
    (simulate (Program.new 1) [5]).isSome = true :=
  (simulate_aborts_iff_precondition (Program.new 1) [5]).mpr (by decide)

/-- **C10** (no linear-adjustment outcome): every result `verify` can return —
under any `HashSet` iteration order — is `Correct _` or `Invalid`; the
`LinearNear` variant of `VerificationResult` is unreachable as a result of
`verify`. -/
theorem verify_never_linear_near (all_vrs : List Vr) (tests : List (RegMap × Int))
    (r : VerificationResult) (h : VerifyOutcome all_vrs tests r) :
    ∀ (v : Vr) (lm lb : Int), r ≠ VerificationResult.LinearNear v lm lb := by
  intro v lm lb
  rcases h with ⟨_, hr⟩ | ⟨u, _, hr⟩ <;> subst hr <;> intro hc <;>
    exact VerificationResult.noConfusion hc

theorem verify_never_linear_near_witness :
    VerificationResult.Invalid ≠ VerificationResult.LinearNear 0 0 0 :=
  verify_never_linear_near [] [] VerificationResult.Invalid (by decide) 0 0 0

/-- **C2 counterexample**: for the one-register root, `derive` produces only 3
children — the growing move plus one `Mul` and one `Add` pair — not the
`R + 3R² = 4` the claim states, and the in-place move `Mov(0,0)` is not among
them: `derive` generates no in-place `Mov(i,j)` candidates at all. -/
theorem derive_count_cex :
    (derive (Program.new 1)).length = 3 ∧
    3 ≠ 1 + 3 * 1 ^ 2 ∧
    (Program.new 1).add_instr (Instr.Mov 0 0) ∉ derive (Program.new 1) := by
  refine ⟨by decide, by decide, by decide⟩

/-- **C2** amended: for a parent with register set `{0..R-1}` (and `next_vr =
R`), `derive` produces exactly the `R` growing moves `Mov(i,R)` for `i < R`
plus `Mul(i,j)` and `Add(i,j)` for every ordered pair `(i,j)` in
`[0,R) × [0,R)` — and **no** in-place `Mov(i,j)` — for a total of `R + 2R²`
pairwise-distinct one-instruction children. -/
theorem derive_children_characterization (p : Program) (R : Nat)
    (hv : p.vrs = List.range R) (hn : p.next_vr = R) :
    (derive p).length = R + 2 * R ^ 2 ∧
    (derive p).Nodup ∧
    ∀ q : Program, q ∈ derive p ↔
      ((∃ i < R, q = (p.make_vr).1.add_instr (Instr.Mov i R)) ∨
       (∃ i < R, ∃ j < R, q = p.add_instr (Instr.Mul i j)) ∨
       (∃ i < R, ∃ j < R, q = p.add_instr (Instr.Add i j))) := by
  subst hn
  refine ⟨?_, derive_nodup p (hv ▸ List.nodup_range _), ?_⟩
  · simp [derive, hv, List.length_flatMap, Function.comp_def, List.map_const',
      List.sum_replicate, smul_eq_mul]
    ring
  · intro q
    rw [mem_derive]
    simp [growChild, hv, List.mem_range]

theorem derive_children_characterization_witness :
    (derive (Program.new 2)).length = 2 + 2 * 2 ^ 2 ∧ (derive (Program.new 2)).Nodup :=
  ⟨(derive_children_characterization (Program.new 2) 2 (by decide) (by decide)).1,
   (derive_children_characterization (Program.new 2) 2 (by decide) (by decide)).2.1⟩

/-- **C3 counterexample**: on a single test case where registers 0 and 1 both
hold the expected value 5, `good_vrs = {0, 1}`, and an admissible `HashSet`
iteration order makes `verify` return `Correct 1` even though the lower index
0 also satisfies every test case — so `verify` does not guarantee the lowest
qualifying register index. -/
theorem verify_not_lowest_cex :
    VerifyOutcome [0, 1] [([(0, 5), (1, 5)], 5)] (VerificationResult.Correct 1) ∧
    SatisfiesAll 0 [([(0, 5), (1, 5)], 5)] ∧ (0 : Vr) < 1 := by
  refine ⟨by decide, by decide, by decide⟩

/-- **C3** amended: for duplicate-free register files, every result `verify`
can return is sound — `Invalid` exactly when no register of `all_vrs`
satisfies the oracle's expectation on every test case, and otherwise
`Correct k` for **some** register `k` that satisfies every test case; *which*
qualifying register is returned is unspecified (`HashSet` iteration order),
not the lowest index. -/
theorem verify_sound_outcome (all_vrs : List Vr) (tests : List (RegMap × Int))
    (r : VerificationResult)
    (hnd : ∀ t ∈ tests, (t.1.map Prod.fst).Nodup)
    (h : VerifyOutcome all_vrs tests r) :
    (r = VerificationResult.Invalid ∧ ∀ v ∈ all_vrs, ¬ SatisfiesAll v tests) ∨
    (∃ v ∈ all_vrs, SatisfiesAll v tests ∧ r = VerificationResult.Correct v) := by
  rcases h with ⟨hempty, hr⟩ | ⟨v, hv, hr⟩
  · left
    refine ⟨hr, ?_⟩
    intro v hva hsat
    have hmem : v ∈ goodVrs all_vrs tests :=
      (mem_goodVrs_satisfies all_vrs tests v hnd).mpr ⟨hva, hsat⟩
    rw [hempty] at hmem
    simp at hmem
  · right
    have hmem := (mem_goodVrs_satisfies all_vrs tests v hnd).mp hv
    exact ⟨v, hmem.1, hmem.2, hr⟩

theorem verify_sound_outcome_witness :
    (VerificationResult.Correct 0 = VerificationResult.Invalid ∧
      ∀ v ∈ [(0 : Vr)], ¬ SatisfiesAll v [([(0, 3)], 3)]) ∨
    (∃ v ∈ [(0 : Vr)], SatisfiesAll v [([(0, 3)], 3)] ∧
      VerificationResult.Correct 0 = VerificationResult.Correct v) :=
  verify_sound_outcome [0] [([(0, 3)], 3)] (VerificationResult.Correct 0)
    (by decide) (by decide)

/-- **C4 counterexample**: the distinct one-instruction programs `[Add(0,0)]`
and `[Mul(0,0)]` have identical materialized outputs on the test suite
`[([0], 0)]` yet are NOT equal — `Program`'s derived equality/hash is
structural on the instruction sequence, not on outputs. -/
theorem program_eq_not_output_eq_cex :
    (testresultsOf [([0], 0)] pAdd).bind as_output_set =
      (testresultsOf [([0], 0)] pMul).bind as_output_set ∧
    ((testresultsOf [([0], 0)] pAdd).bind as_output_set).isSome ∧
    pAdd ≠ pMul := by
  refine ⟨by decide, by decide, by decide⟩

/-- **C4** amended: two `Program`s are equal (and hash identically) iff their
components — instruction sequence `code`, register list `vrs`, `next_vr`, and
`input_vrs` — are all equal; equal programs have identical materialized
outputs on every input, but programs with identical outputs produced by
different instruction sequences are not equal (see the counterexample). -/
theorem program_eq_structural (p q : Program) :
    (p = q ↔ p.code = q.code ∧ p.vrs = q.vrs ∧ p.next_vr = q.next_vr ∧
      p.input_vrs = q.input_vrs) ∧
    (p = q → ∀ inputs : List Int, simulate p inputs = simulate q inputs) := by
  constructor
  · cases p
    cases q
    simp
  · intro h inputs
    rw [h]

theorem program_eq_structural_witness :
    simulate pAdd [0] = simulate pAdd [0] :=
  (program_eq_structural pAdd pAdd).2 rfl [0]

/-- **C1** (deduplication soundness — the claim FAILS on the code).
Concrete run on the oracle `[([1], 7)]` with one input register.  Generation 1
retains `[Mov(0,1)]` and `[Add(0,0)]` (the `[Mul(0,0)]` child reproduces the
root signature `[[1]]` and is filtered; nothing verifies).  In generation 2,
the two distinct candidates `[Mov(0,1); Mul(0,1)]` and `[Mov(0,1); Mul(1,1)]`
have the identical materialized-output signature `[[1,1]]`, yet BOTH are
retained in the next frontier: the loop reads `visited` but never inserts into
it after the root, and the frontier `HashSet<Program>` keys on structural
program equality, so equal-signature candidates are not deduplicated. -/
theorem frontier_retains_equal_signature_pair :
    (testresultsOf oracle7 (Program.new 1)).bind as_output_set = some [[1]] ∧
    genResults oracle7 visited7 [Program.new 1] =
      some [(movChild1, [[1, 1]], VerificationResult.Invalid),
            (addChild1, [[2]], VerificationResult.Invalid)] ∧
    ((genResults oracle7 visited7 frontier1).getD []).find? isGoodResult = none ∧
    progA ∈ ((genResults oracle7 visited7 frontier1).getD []).map (fun rt => rt.1) ∧
    progB ∈ ((genResults oracle7 visited7 frontier1).getD []).map (fun rt => rt.1) ∧
    progA ≠ progB ∧
    sigOf7 progA = some [[1, 1]] ∧ sigOf7 progB = some [[1, 1]] := by
  refine ⟨by decide, by decide, by decide, by decide, by decide, by decide,
    by decide, by decide⟩

/-- **C5 counterexample**: on the degenerate oracle `[([0],0), ([1],1)]` the
trivial zero-instruction root already satisfies the oracle — `main` computes
and prints `Correct 0` for it — yet the run does NOT terminate in generation
0: the loop unconditionally expands generation-1 candidates (a non-empty
result list) and first terminates at generation 1 with a one-instruction
winner. -/
theorem gen0_no_termination_cex :
    mainModel degenOracle 1 2 =
      some (VerificationResult.Correct 0, some (1, movWinner)) ∧
    genResults degenOracle [[[0], [1]]] [Program.new 1] ≠ some [] ∧
    movWinner.code.length = 1 := by
  refine ⟨by decide, by decide, by decide⟩

/-- **C5** amended: the root node is verified immediately and the result is
reported, but even when the trivial zero-instruction program satisfies the
oracle the run does not terminate in generation 0: whenever `main` reports a
winning program it does so at generation `g ≥ 1`, after expanding candidates. -/
theorem search_success_generation_positive (testinputs : List (List Int × Int))
    (insize fuel : Nat) (res : VerificationResult) (g : Nat) (w : Program)
    (h : mainModel testinputs insize fuel = some (res, some (g, w))) : 1 ≤ g := by
  unfold mainModel at h
  cases h1 : testresultsOf testinputs (Program.new insize) with
  | none => simp only [h1] at h; exact absurd h (by simp)
  | some testresults =>
    simp only [h1] at h
    cases h2 : as_output_set testresults with
    | none => simp only [h2] at h; exact absurd h (by simp)
    | some rootSig =>
      simp only [h2, Option.some.injEq, Prod.mk.injEq] at h
      exact loopRun_gen_le testinputs [rootSig] fuel 1 [Program.new insize] g w h.2

theorem search_success_generation_positive_witness : (1 : Nat) ≤ 1 :=
  search_success_generation_positive degenOracle 1 2 (VerificationResult.Correct 0)
    1 movWinner (by decide)
